import Mathlib

/- Shallow embedding of the article parsing core of the innovation-generation
   repository: the delimiter segmenter, the two title patterns, the simple
   article extractor (core/ai_models.py, parse_articles), the two notes-mode
   parsers (scripts/generate_innovations_single_video.py and
   scripts/generate_innovations_pipeline.py, parse_innovations_and_notes), and
   the body decomposition (parse_innovation_body).  Strings are modelled as
   lists of characters; the embedding covers the ASCII behaviour of the Python
   string and regex primitives that the code uses. -/

namespace InnovGen

set_option maxRecDepth 8000

/-- Strings of the modelled program, as lists of characters. -/
abbrev Str := List Char

/-- Python default whitespace set (ASCII part), as stripped by str.strip and
matched by the regex class backslash-s. -/
def isPyWs (c : Char) : Bool :=
  c = ' ' || c = '\t' || c = '\n' || c = '\r' || c = '\x0B' || c = '\x0C'

/-- Leading-whitespace removal, the left half of Python str.strip. -/
def stripLeft (s : Str) : Str := s.dropWhile isPyWs

/-- Trailing-whitespace removal, the right half of Python str.strip. -/
def stripRight (s : Str) : Str := (s.reverse.dropWhile isPyWs).reverse

/-- Python str.strip with no arguments: both ends trimmed. -/
def pyStrip (s : Str) : Str := stripLeft (stripRight s)

/-- One attempt of the section delimiter regex (a newline, then three or more
hyphens taken greedily, then a newline) at the head of the string.  On success
returns the remainder of the string after the whole match.  This is the
pattern that re.split uses in every parser variant of the repository. -/
def delimCheck (l : Str) : Option Str :=
  match l with
  | [] => none
  | c :: t =>
    if c = '\n' then
      let k := (t.takeWhile (fun x => x = '-')).length
      if 3 ≤ k then
        match t.drop k with
        | [] => none
        | c2 :: r => if c2 = '\n' then some r else none
      else none
    else none

theorem delimCheck_nil : delimCheck [] = none := rfl

theorem delimCheck_cons_ne {c : Char} {t : Str} (h : c ≠ '\n') :
    delimCheck (c :: t) = none := by
  simp [delimCheck, h]

theorem takeWhile_replicate_append {k : Nat} {r : Str} :
    (List.replicate k '-' ++ '\n' :: r).takeWhile (fun x => x = '-')
      = List.replicate k '-' := by
  induction k with
  | zero => simp [List.takeWhile]
  | succ n ih => simp [List.replicate, List.takeWhile, ih]

theorem delimCheck_replicate {k : Nat} (hk : 3 ≤ k) (r : Str) :
    delimCheck ('\n' :: (List.replicate k '-' ++ '\n' :: r)) = some r := by
  simp only [delimCheck, if_pos rfl, takeWhile_replicate_append]
  rw [List.length_replicate, if_pos hk, List.drop_left' (List.length_replicate _ _)]
  simp

theorem drop_takeWhile_length (p : Char → Bool) :
    ∀ l : Str, l.drop (l.takeWhile p).length = l.dropWhile p := by
  intro l
  induction l with
  | nil => rfl
  | cons c cs ih =>
    by_cases hc : p c
    · simp [List.takeWhile, List.dropWhile, hc, ih]
    · simp [List.takeWhile, List.dropWhile, hc]

theorem delimCheck_some {l r : Str} (h : delimCheck l = some r) :
    ∃ k, 3 ≤ k ∧ l = '\n' :: (List.replicate k '-' ++ '\n' :: r) := by
  simp only [delimCheck] at h
  split at h
  · exact absurd h (by simp)
  next c t =>
    split at h
    case isFalse => exact absurd h (by simp)
    next hc =>
      split at h
      case isFalse => exact absurd h (by simp)
      next hk =>
        split at h
        · exact absurd h (by simp)
        next c2 r2 hd =>
          split at h
          case isFalse => exact absurd h (by simp)
          next hc2 =>
            have hr : r2 = r := by simpa using h
            subst hr; subst hc2; subst hc
            refine ⟨(t.takeWhile (fun x => x = '-')).length, hk, ?_⟩
            have h1 : t.takeWhile (fun x => x = '-')
                = List.replicate (t.takeWhile (fun x => x = '-')).length '-' := by
              rw [List.eq_replicate_iff]
              refine ⟨rfl, fun b hb => ?_⟩
              have := List.mem_takeWhile_imp hb
              simpa using this
            have h2 : t = t.takeWhile (fun x => x = '-') ++ ('\n' :: r2) := by
              conv_lhs => rw [← List.takeWhile_append_dropWhile
                (p := fun x => x = '-') (l := t)]
              rw [← drop_takeWhile_length (fun x => x = '-') t, hd]
            conv_lhs => rw [h2]
            rw [← h1]

theorem delimCheck_length {l r : Str} (h : delimCheck l = some r) :
    r.length < l.length := by
  obtain ⟨k, hk, rfl⟩ := delimCheck_some h
  simp only [List.length_cons, List.length_append, List.length_replicate]
  omega

theorem delimCheck_append {l r : Str} (h : delimCheck l = some r) (m : Str) :
    delimCheck (l ++ m) = some (r ++ m) := by
  obtain ⟨k, hk, rfl⟩ := delimCheck_some h
  have : ('\n' :: (List.replicate k '-' ++ '\n' :: r)) ++ m
      = '\n' :: (List.replicate k '-' ++ '\n' :: (r ++ m)) := by simp
  rw [this, delimCheck_replicate hk]

/-- Scanner for re.split over the delimiter pattern: the string is traversed
left to right, the leftmost match is cut out, and scanning resumes after it.
The accumulator holds the current piece in reverse; the fuel argument only
serves structural recursion and is irrelevant once it exceeds the length of
the string. -/
def splitGoF : Nat → Str → Str → List Str
  | 0, _, acc => [acc.reverse]
  | f + 1, s, acc =>
    match delimCheck s with
    | some rest => acc.reverse :: splitGoF f rest []
    | none =>
      match s with
      | [] => [acc.reverse]
      | c :: cs => splitGoF f cs (c :: acc)

/-- The delimiter scanner at sufficient fuel. -/
def splitGo (s acc : Str) : List Str := splitGoF (s.length + 1) s acc

/-- re.split of the raw response on the delimiter pattern, as every parser
variant performs it. -/
def splitDelim (s : Str) : List Str := splitGo s []

theorem splitGoF_delim {s rest : Str} (f : Nat) (acc : Str)
    (h : delimCheck s = some rest) :
    splitGoF (f + 1) s acc = acc.reverse :: splitGoF f rest [] := by
  simp only [splitGoF, h]

theorem splitGoF_cons {c : Char} {cs : Str} (f : Nat) (acc : Str)
    (h : delimCheck (c :: cs) = none) :
    splitGoF (f + 1) (c :: cs) acc = splitGoF f cs (c :: acc) := by
  simp only [splitGoF, h]

theorem splitGoF_irrel : ∀ f g s acc, s.length < f → s.length < g →
    splitGoF f s acc = splitGoF g s acc := by
  intro f
  induction f using Nat.strong_induction_on with
  | _ f ih =>
    intro g s acc hf hg
    cases f with
    | zero => omega
    | succ f =>
      cases g with
      | zero => omega
      | succ g =>
        cases hdc : delimCheck s with
        | some rest =>
          have hr := delimCheck_length hdc
          rw [splitGoF_delim f acc hdc, splitGoF_delim g acc hdc,
              ih f (by omega) g rest [] (by omega) (by omega)]
        | none =>
          cases s with
          | nil => rfl
          | cons c cs =>
            have hlen : cs.length < f := by
              simp only [List.length_cons] at hf; omega
            have hleng : cs.length < g := by
              simp only [List.length_cons] at hg; omega
            rw [splitGoF_cons f acc hdc, splitGoF_cons g acc hdc,
                ih f (by omega) g cs (c :: acc) hlen hleng]

theorem splitGo_delim {s rest : Str} (acc : Str) (h : delimCheck s = some rest) :
    splitGo s acc = acc.reverse :: splitGo rest [] := by
  show splitGoF (s.length + 1) s acc = _
  rw [splitGoF_delim s.length acc h,
      splitGoF_irrel s.length (rest.length + 1) rest []
        (delimCheck_length h) (Nat.lt_succ_self _)]
  rfl

theorem splitGo_nil (acc : Str) : splitGo [] acc = [acc.reverse] := by
  rfl

theorem splitGo_cons {c : Char} {cs : Str} (acc : Str)
    (h : delimCheck (c :: cs) = none) :
    splitGo (c :: cs) acc = splitGo cs (c :: acc) := by
  show splitGoF ((c :: cs).length + 1) (c :: cs) acc = _
  have hl : (c :: cs).length + 1 = (cs.length + 1) + 1 := by simp
  rw [hl, splitGoF_cons (cs.length + 1) acc h]
  rfl

/-- A single regex match result: the full matched text, the first capture
group, and the suffix of the searched string after the match end. -/
structure ReMatch where
  g0 : Str
  g1 : Str
  after : Str
deriving DecidableEq

/-- Scanner of the MULTILINE caret positions after the current one: each
character right after a newline is a line start, where the attempt function
is tried, in order from the left. -/
def scanSearch (f : Str → Option ReMatch) : Str → Option ReMatch
  | [] => none
  | c :: cs =>
    if c = '\n' then
      match f cs with
      | some m => some m
      | none => scanSearch f cs
    else scanSearch f cs

/-- re.search of a pattern anchored with a MULTILINE caret: the attempt
function is tried at position zero and after every newline, leftmost line
start first. -/
def searchML (f : Str → Option ReMatch) (s : Str) : Option ReMatch :=
  match f s with
  | some m => some m
  | none => scanSearch f s

theorem searchML_hit {f : Str → Option ReMatch} {s : Str} {m : ReMatch}
    (h : f s = some m) : searchML f s = some m := by
  rw [searchML, h]

theorem searchML_miss {f : Str → Option ReMatch} {s : Str}
    (h : f s = none) : searchML f s = scanSearch f s := by
  rw [searchML, h]

/-- Close scanner of the non-greedy bold group: characters are consumed one at
a time (never a newline) and the first position where a double asterisk
follows closes the group.  The accumulator is non-empty on entry, so the group
has at least one character, exactly as the regex dot-plus requires. -/
def scanClose (acc : Str) : Str → Option (Str × Str)
  | [] => none
  | c :: cs =>
    if c = '*' ∧ cs.head? = some '*' then some (acc.reverse, cs.tail)
    else if c = '\n' then none
    else scanClose (c :: acc) cs

/-- Group matcher of the bold title pattern after the opening marker: consume
one first character, then scan for the earliest closing double asterisk. -/
def boldGroup : Str → Option (Str × Str)
  | c :: cs => if c = '\n' then none else scanClose [c] cs
  | [] => none

/-- One anchored attempt of the bold title pattern (a line whose start is a
double asterisk, non-greedy group, closing double asterisk). -/
def boldAt (s : Str) : Option ReMatch :=
  match s with
  | '*' :: '*' :: u =>
    match boldGroup u with
    | some (g, r) => some ⟨'*' :: '*' :: (g ++ ['*', '*']), g, r⟩
    | none => none
  | _ => none

/-- One anchored attempt of the heading title pattern (hash, one or more
whitespace characters taken greedily with backtracking, then a non-greedy
group running to the end of the line).  The helper tries the whitespace width
from the full run downwards; a width succeeds when a character that is not a
newline stands right after it, and the group is then the rest of that line. -/
def hashTryW (t : Str) : Nat → Option (Nat × Str)
  | 0 => none
  | w + 1 =>
    match t.drop (w + 1) with
    | c :: _ =>
      if c = '\n' then hashTryW t w
      else some (w + 1, (t.drop (w + 1)).takeWhile (fun x => x ≠ '\n'))
    | [] => hashTryW t w

def hashAt (s : Str) : Option ReMatch :=
  match s with
  | '#' :: t =>
    match hashTryW t (t.takeWhile isPyWs).length with
    | some (w, g) => some ⟨'#' :: (t.take w ++ g), g, t.drop (w + g.length)⟩
    | none => none
  | _ => none

/-- Title match attempt order of parse_articles in src/core/ai_models.py:
first the bold pattern, then the heading pattern. -/
def amTitleMatch (sec : Str) : Option ReMatch :=
  match searchML boldAt sec with
  | some m => some m
  | none => searchML hashAt sec

/-- An article as produced by parse_articles: a title and a body. -/
structure Article where
  title : Str
  body : Str
deriving DecidableEq

/-- The per-section logic of parse_articles in src/core/ai_models.py: strip
the section, skip it when empty or shorter than 80 characters, find a title
with the bold pattern first and the heading pattern second, take the body as
everything after the match end, and skip when the body is shorter than 100
characters. -/
def extractArticle (sec0 : Str) : Option Article :=
  let sec := pyStrip sec0
  if sec.isEmpty || sec.length < 80 then none
  else
    match amTitleMatch sec with
    | none => none
    | some m =>
      let title := pyStrip m.g1
      let body := pyStrip m.after
      if body.length < 100 then none
      else some ⟨title, body⟩

/-- parse_articles of src/core/ai_models.py: split the response on delimiter
lines and run the per-section extractor over the sections in order. -/
def parseArticles (content : Str) : List Article :=
  (splitDelim content).filterMap extractArticle

/-- ASCII lowercase of a string, modelling Python str.lower on the inputs the
code handles. -/
def lowerStr (s : Str) : Str := s.map Char.toLower

/-- Case-insensitive literal test at the head of a string; the pattern is
given in lowercase. -/
def ciHasPre (pat s : Str) : Bool := lowerStr (s.take pat.length) == pat

/-- Python str.find as an option: index of the first occurrence of pat. -/
def subFind (s pat : Str) : Option Nat :=
  if pat.isPrefixOf s then some 0
  else
    match s with
    | [] => none
    | _ :: cs => (subFind cs pat).map (· + 1)

def containsSub (s pat : Str) : Bool := (subFind s pat).isSome

def keyInsightLC : Str := ['k', 'e', 'y', ' ', 'i', 'n', 's', 'i', 'g', 'h', 't', ':']

def keyInsightCS : Str := ['K', 'e', 'y', ' ', 'I', 'n', 's', 'i', 'g', 'h', 't', ':']

def thinkAboutItCS : Str :=
  ['T', 'h', 'i', 'n', 'k', ' ', 'a', 'b', 'o', 'u', 't', ' ', 'i', 't', ':']

/-- The lowercase formatting-artifact titles rejected by both notes-mode
parsers. -/
def artifactTitles : List Str :=
  [keyInsightLC,
   ['k', 'e', 'y', ' ', 'i', 'n', 's', 'i', 'g', 'h', 't'],
   ['i', 'n', 'n', 'o', 'v', 'a', 't', 'i', 'o', 'n'],
   ['t', 'h', 'i', 'n', 'k', ' ', 'a', 'b', 'o', 'u', 't', ' ', 'i', 't', ':'],
   ['s', 'u', 'm', 'm', 'a', 'r', 'y', ':']]

def wsRun (s : Str) : Nat := (s.takeWhile isPyWs).length

/-- Sentence-final punctuation class of the narrative lead-in patterns. -/
def isPunct (c : Char) : Bool := c = '.' || c = '!' || c = '?'

/-- Greedy bounded repetition of the non-punctuation class followed by one
punctuation character, as one deterministic step: the full run of characters
outside the class terminator is taken; the repetition can only close at the
end of that run, so a match needs the run length within the twenty-to-eighty
bounds and a following character. -/
def classRepAt (s : Str) : Option Str :=
  let r := (s.takeWhile (fun c => !isPunct c)).length
  if 20 ≤ r ∧ r ≤ 80 ∧ r < s.length then some (s.take r) else none

/-- Backtracking loop of a greedy one-or-more whitespace run: widths are tried
from the full run downwards to one, and the continuation decides success. -/
def wsBack (k : Str → Option Str) (s : Str) : Nat → Option Str
  | 0 => none
  | w + 1 =>
    match k (s.drop (w + 1)) with
    | some g => some g
    | none => wsBack k s w

def thatLit : Str := ['t', 'h', 'a', 't']

/-- The optional greedy group of the first narrative pattern: try the literal
with its whitespace, fall back to skipping the optional group. -/
def tryThatThen (s : Str) : Option Str :=
  if ciHasPre thatLit s then
    match wsBack classRepAt (s.drop 4) (wsRun (s.drop 4)) with
    | some g => some g
    | none => classRepAt s
  else classRepAt s

def heresLit : Str := ['h', 'e', 'r', 'e', '\x27', 's', ' ']

def somethingLit : Str := ['s', 'o', 'm', 'e', 't', 'h', 'i', 'n', 'g']

def aTruthLit : Str := ['a', ' ', 't', 'r', 'u', 't', 'h']

def whatsLit : Str := ['w', 'h', 'a', 't', '\x27', 's']

/-- One attempt of the first narrative lead-in pattern.  The three literal
alternatives begin with pairwise distinct characters, so the ordered
alternation is deterministic. -/
def p1At (s : Str) : Option Str :=
  if ciHasPre heresLit s then
    let t := s.drop 7
    if ciHasPre somethingLit t then wsBack tryThatThen (t.drop 9) (wsRun (t.drop 9))
    else if ciHasPre aTruthLit t then wsBack tryThatThen (t.drop 7) (wsRun (t.drop 7))
    else if ciHasPre whatsLit t then wsBack tryThatThen (t.drop 6) (wsRun (t.drop 6))
    else none
  else none

def youKnowWhatLit : Str :=
  ['y', 'o', 'u', ' ', 'k', 'n', 'o', 'w', ' ', 'w', 'h', 'a', 't']

def thinkAboutLit : Str := ['t', 'h', 'i', 'n', 'k', ' ', 'a', 'b', 'o', 'u', 't']

/-- One attempt of the second narrative lead-in pattern. -/
def p2At (s : Str) : Option Str :=
  if ciHasPre youKnowWhatLit s then wsBack classRepAt (s.drop 13) (wsRun (s.drop 13))
  else if ciHasPre thinkAboutLit s then wsBack classRepAt (s.drop 11) (wsRun (s.drop 11))
  else none

def jesusLit : Str := ['j', 'e', 's', 'u', 's', ' ']

def saidLit : Str := ['s', 'a', 'i', 'd']

def toldLit : Str := ['t', 'o', 'l', 'd']

def taughtLit : Str := ['t', 'a', 'u', 'g', 'h', 't']

/-- One attempt of the third narrative lead-in pattern. -/
def p3At (s : Str) : Option Str :=
  if ciHasPre jesusLit s then
    let t := s.drop 6
    if ciHasPre saidLit t then wsBack classRepAt (t.drop 4) (wsRun (t.drop 4))
    else if ciHasPre toldLit t then wsBack classRepAt (t.drop 4) (wsRun (t.drop 4))
    else if ciHasPre taughtLit t then wsBack classRepAt (t.drop 6) (wsRun (t.drop 6))
    else none
  else none

/-- Unanchored re.search: the attempt function is tried at every position from
the left. -/
def searchAllStr (f : Str → Option Str) : Str → Option Str
  | [] => f []
  | c :: cs =>
    match f (c :: cs) with
    | some g => some g
    | none => searchAllStr f cs

/-- The ordered loop over the three narrative lead-in patterns of the
single-video fallback title synthesis. -/
def themeTitle (preview : Str) : Option Str :=
  match searchAllStr p1At preview with
  | some g => some g
  | none =>
    match searchAllStr p2At preview with
    | some g => some g
    | none => searchAllStr p3At preview

/-- One attempt of the last-resort title pattern: a blank line, a capital
letter, ten to eighty characters without sentence punctuation, then one
punctuation character. -/
def firstLineAt (s : Str) : Option Str :=
  match s with
  | '\n' :: '\n' :: t =>
    match t with
    | c :: rest =>
      if c.isUpper then
        let r := (rest.takeWhile (fun x => !isPunct x)).length
        if 10 ≤ r ∧ r ≤ 80 ∧ r < rest.length then some (c :: rest.take r) else none
      else none
    | [] => none
  | _ => none

/-- Post-processing of a synthesized theme title in the single-video variant:
strip, cap at sixty characters, then capitalize when the first character is
not uppercase.  The none result models the uncaught IndexError the code
raises when the stripped group is empty and it indexes character zero. -/
def fixTitle (g : Str) : Option Str :=
  match (pyStrip g).take 60 with
  | [] => none
  | c :: cs => some (if c.isUpper then c :: cs else c.toUpper :: cs.map Char.toLower)

/-- Title match attempt order of both notes-mode parsers: first the heading
pattern, then the bold pattern. -/
def svTitleMatch (sec : Str) : Option ReMatch :=
  match searchML hashAt sec with
  | some m => some m
  | none => searchML boldAt sec

/-- Body computation of the notes-mode parsers: find the first occurrence of
the full matched title text in the section, drop through its end, and strip.
The none branch of the find mirrors Python find returning minus one. -/
def mBody (sec : Str) (m : ReMatch) : Str :=
  let bs : Nat :=
    match subFind sec m.g0 with
    | some i => i + m.g0.length
    | none => m.g0.length - 1
  pyStrip (sec.drop bs)

/-- Outcome of one section in the single-video parser: skipped, accepted with
a title and a body, or an uncaught IndexError. -/
inductive SvStep where
  | skip : SvStep
  | err : SvStep
  | accept : Str → Str → SvStep
deriving DecidableEq

/-- The per-section logic of parse_innovations_and_notes in
src/scripts/generate_innovations_single_video.py: strip, skip below fifty
characters, heading-then-bold title match, artifact-title rejection with the
tiered fallback synthesis (narrative lead-in clause, then first capitalized
sentence after a blank line, else skip), and find-based body extraction. -/
def svStep (sec0 : Str) : SvStep :=
  let sec := pyStrip sec0
  if sec.isEmpty || sec.length < 50 then .skip
  else
    match svTitleMatch sec with
    | none => .skip
    | some m =>
      let title := pyStrip m.g1
      if artifactTitles.contains (lowerStr title) then
        match themeTitle (sec.take 500) with
        | some g =>
          match fixTitle g with
          | none => .err
          | some t => .accept t (mBody sec m)
        | none =>
          match searchAllStr firstLineAt sec with
          | some g => .accept (g.take 60) (mBody sec m)
          | none => .skip
      else .accept title (mBody sec m)

/-- An innovation record of the notes-mode parsers: title, body and up to two
substack notes. -/
structure Innovation where
  title : Str
  body : Str
  note1 : Str
  note2 : Str
deriving DecidableEq

/-- Acceptance test of a following section as a substack note: trimmed length
under four hundred and neither structured-field marker present. -/
def noteOk (ns : Str) : Bool :=
  ns.length < 400 && !containsSub ns keyInsightCS && !containsSub ns thinkAboutItCS

/-- The note lookahead shared by both notes-mode parsers: after an accepted
article section, up to two immediately following sections are consumed as
notes when each passes the note test; a section that fails the test stays in
the remaining list and is available as the next candidate article.  Returns
the first note, the second note, and the remaining sections. -/
def takeNotes : List Str → Str × Str × List Str
  | [] => ([], [], [])
  | n1 :: rest1 =>
    if noteOk (pyStrip n1) then
      match rest1 with
      | [] => (pyStrip n1, [], [])
      | n2 :: rest2 =>
        if noteOk (pyStrip n2) then (pyStrip n1, pyStrip n2, rest2)
        else (pyStrip n1, [], rest1)
    else ([], [], n1 :: rest1)

theorem takeNotes_length : ∀ l : List Str, (takeNotes l).2.2.length ≤ l.length := by
  intro l
  match l with
  | [] => simp [takeNotes]
  | n1 :: rest1 =>
    simp only [takeNotes]
    split
    · match rest1 with
      | [] => simp
      | n2 :: rest2 =>
        simp only []
        split
        · simp; omega
        · simp
    · simp

/-- The scan loop of the single-video parser over the section list: accepted
sections consume up to two following note sections.  The none result
propagates the uncaught IndexError of the fallback title synthesis.  The
fuel argument only serves structural recursion and is irrelevant once it
exceeds the length of the list. -/
def svAuxF : Nat → List Str → Option (List Innovation)
  | 0, _ => some []
  | f + 1, l =>
    match l with
    | [] => some []
    | s :: rest =>
      match svStep s with
      | .skip => svAuxF f rest
      | .err => none
      | .accept t b =>
        let nn := takeNotes rest
        (svAuxF f nn.2.2).map (fun ll => ⟨t, b, nn.1, nn.2.1⟩ :: ll)

/-- The single-video scan loop at sufficient fuel. -/
def svAux (l : List Str) : Option (List Innovation) := svAuxF (l.length + 1) l

theorem svAuxF_skip {s : Str} {rest : List Str} (f : Nat)
    (h : svStep s = SvStep.skip) :
    svAuxF (f + 1) (s :: rest) = svAuxF f rest := by
  simp only [svAuxF, h]

theorem svAuxF_err {s : Str} {rest : List Str} (f : Nat)
    (h : svStep s = SvStep.err) :
    svAuxF (f + 1) (s :: rest) = none := by
  simp only [svAuxF, h]

theorem svAuxF_accept {s t b : Str} {rest : List Str} (f : Nat)
    (h : svStep s = SvStep.accept t b) :
    svAuxF (f + 1) (s :: rest)
      = (svAuxF f (takeNotes rest).2.2).map
          (fun ll => ⟨t, b, (takeNotes rest).1, (takeNotes rest).2.1⟩ :: ll) := by
  simp only [svAuxF, h]

theorem svAuxF_irrel : ∀ f g l, l.length < f → l.length < g →
    svAuxF f l = svAuxF g l := by
  intro f
  induction f using Nat.strong_induction_on with
  | _ f ih =>
    intro g l hf hg
    cases f with
    | zero => omega
    | succ f =>
      cases g with
      | zero => omega
      | succ g =>
        cases l with
        | nil => rfl
        | cons s rest =>
          have hlen : rest.length < f := by
            simp only [List.length_cons] at hf; omega
          have hleng : rest.length < g := by
            simp only [List.length_cons] at hg; omega
          have hnn : (takeNotes rest).2.2.length ≤ rest.length := takeNotes_length rest
          cases hst : svStep s with
          | skip =>
            rw [svAuxF_skip f hst, svAuxF_skip g hst,
                ih f (by omega) g rest hlen hleng]
          | err => rw [svAuxF_err f hst, svAuxF_err g hst]
          | accept t b =>
            rw [svAuxF_accept f hst, svAuxF_accept g hst,
                ih f (by omega) g (takeNotes rest).2.2 (by omega) (by omega)]

theorem svAux_nil : svAux [] = some [] := rfl

theorem svAux_skip {s : Str} {rest : List Str} (h : svStep s = SvStep.skip) :
    svAux (s :: rest) = svAux rest := by
  show svAuxF ((s :: rest).length + 1) (s :: rest) = _
  have hl : (s :: rest).length + 1 = (rest.length + 1) + 1 := by simp
  rw [hl, svAuxF_skip (rest.length + 1) h]
  rfl

theorem svAux_err {s : Str} {rest : List Str} (h : svStep s = SvStep.err) :
    svAux (s :: rest) = none := by
  show svAuxF ((s :: rest).length + 1) (s :: rest) = _
  have hl : (s :: rest).length + 1 = (rest.length + 1) + 1 := by simp
  rw [hl, svAuxF_err (rest.length + 1) h]

theorem svAux_accept {s t b : Str} {rest : List Str}
    (h : svStep s = SvStep.accept t b) :
    svAux (s :: rest)
      = (svAux (takeNotes rest).2.2).map
          (fun ll => ⟨t, b, (takeNotes rest).1, (takeNotes rest).2.1⟩ :: ll) := by
  show svAuxF ((s :: rest).length + 1) (s :: rest) = _
  have hl : (s :: rest).length + 1 = (rest.length + 1) + 1 := by simp
  rw [hl, svAuxF_accept (rest.length + 1) h,
      svAuxF_irrel (rest.length + 1) ((takeNotes rest).2.2.length + 1)
        (takeNotes rest).2.2 (Nat.lt_succ_of_le (takeNotes_length rest))
        (Nat.lt_succ_self _)]
  rfl

/-- parse_innovations_and_notes of
src/scripts/generate_innovations_single_video.py.  The none result models the
function raising an uncaught IndexError. -/
def parseInnovationsAndNotesSV (content : Str) : Option (List Innovation) :=
  svAux (splitDelim content)

/-- The per-section logic of parse_innovations_and_notes in
src/scripts/generate_innovations_pipeline.py: as the single-video variant,
except that an artifact title is rejected immediately; the synthesis code
after that rejection in the source is unreachable, because it follows a
continue statement. -/
def plStep (sec0 : Str) : Option (Str × Str) :=
  let sec := pyStrip sec0
  if sec.isEmpty || sec.length < 50 then none
  else
    match svTitleMatch sec with
    | none => none
    | some m =>
      let title := pyStrip m.g1
      if artifactTitles.contains (lowerStr title) then none
      else some (title, mBody sec m)

/-- The scan loop of the playlist-pipeline parser, identical to the
single-video loop except for the per-section step.  The fuel argument only
serves structural recursion. -/
def plAuxF : Nat → List Str → List Innovation
  | 0, _ => []
  | f + 1, l =>
    match l with
    | [] => []
    | s :: rest =>
      match plStep s with
      | none => plAuxF f rest
      | some (t, b) =>
        let nn := takeNotes rest
        ⟨t, b, nn.1, nn.2.1⟩ :: plAuxF f nn.2.2

/-- The playlist-pipeline scan loop at sufficient fuel. -/
def plAux (l : List Str) : List Innovation := plAuxF (l.length + 1) l

theorem plAuxF_skip {s : Str} {rest : List Str} (f : Nat)
    (h : plStep s = none) :
    plAuxF (f + 1) (s :: rest) = plAuxF f rest := by
  simp only [plAuxF, h]

theorem plAuxF_accept {s t b : Str} {rest : List Str} (f : Nat)
    (h : plStep s = some (t, b)) :
    plAuxF (f + 1) (s :: rest)
      = ⟨t, b, (takeNotes rest).1, (takeNotes rest).2.1⟩
          :: plAuxF f (takeNotes rest).2.2 := by
  simp only [plAuxF, h]

theorem plAuxF_irrel : ∀ f g l, l.length < f → l.length < g →
    plAuxF f l = plAuxF g l := by
  intro f
  induction f using Nat.strong_induction_on with
  | _ f ih =>
    intro g l hf hg
    cases f with
    | zero => omega
    | succ f =>
      cases g with
      | zero => omega
      | succ g =>
        cases l with
        | nil => rfl
        | cons s rest =>
          have hlen : rest.length < f := by
            simp only [List.length_cons] at hf; omega
          have hleng : rest.length < g := by
            simp only [List.length_cons] at hg; omega
          have hnn : (takeNotes rest).2.2.length ≤ rest.length := takeNotes_length rest
          cases hst : plStep s with
          | none =>
            rw [plAuxF_skip f hst, plAuxF_skip g hst,
                ih f (by omega) g rest hlen hleng]
          | some tb =>
            obtain ⟨t, b⟩ := tb
            rw [plAuxF_accept f hst, plAuxF_accept g hst,
                ih f (by omega) g (takeNotes rest).2.2 (by omega) (by omega)]

theorem plAux_skip {s : Str} {rest : List Str} (h : plStep s = none) :
    plAux (s :: rest) = plAux rest := by
  show plAuxF ((s :: rest).length + 1) (s :: rest) = _
  have hl : (s :: rest).length + 1 = (rest.length + 1) + 1 := by simp
  rw [hl, plAuxF_skip (rest.length + 1) h]
  rfl

theorem plAux_accept {s t b : Str} {rest : List Str}
    (h : plStep s = some (t, b)) :
    plAux (s :: rest)
      = ⟨t, b, (takeNotes rest).1, (takeNotes rest).2.1⟩
          :: plAux (takeNotes rest).2.2 := by
  show plAuxF ((s :: rest).length + 1) (s :: rest) = _
  have hl : (s :: rest).length + 1 = (rest.length + 1) + 1 := by simp
  rw [hl, plAuxF_accept (rest.length + 1) h,
      plAuxF_irrel (rest.length + 1) ((takeNotes rest).2.2.length + 1)
        (takeNotes rest).2.2 (Nat.lt_succ_of_le (takeNotes_length rest))
        (Nat.lt_succ_self _)]
  rfl

/-- parse_innovations_and_notes of
src/scripts/generate_innovations_pipeline.py. -/
def parseInnovationsAndNotesPL (content : Str) : List Innovation :=
  plAux (splitDelim content)

/-- Unanchored re.search that also reports the match position: the attempt
function is tried at every position from the left, and the offset of the
first succeeding position is returned with its payload. -/
def searchAllPos {α : Type} (f : Str → Option α) : Str → Option (Nat × α)
  | [] => (f []).map (fun a => (0, a))
  | c :: cs =>
    match f (c :: cs) with
    | some a => some (0, a)
    | none => (searchAllPos f cs).map (fun p => (p.1 + 1, p.2))

/-- Backtracking loop of a greedy zero-or-more whitespace run: widths are
tried from the full run downwards to zero; the chosen width is returned with
the payload of the continuation. -/
def wsBack0 (k : Str → Option Str) (s : Str) : Nat → Option (Nat × Str)
  | 0 => (k s).map (fun g => (0, g))
  | w + 1 =>
    match k (s.drop (w + 1)) with
    | some g => some (w + 1, g)
    | none => wsBack0 k s w

/-- Group step of the key-insight pattern: one or more non-newline characters
taken non-greedily, closed by a lookahead at a blank line.  Because the group
cannot contain a newline, it can only close at the end of the current line,
so the line must be non-empty and followed by a second newline. -/
def insightGroupAt (u : Str) : Option Str :=
  let L := (u.takeWhile (fun c => c ≠ '\n')).length
  match u.drop L with
  | '\n' :: '\n' :: _ => if 1 ≤ L then some (u.take L) else none
  | _ => none

/-- One attempt of the key-insight pattern, case-insensitive, returning the
match end relative to the attempt position together with the group. -/
def insightAt (s : Str) : Option (Nat × Str) :=
  if ciHasPre keyInsightLC s then
    let t := s.drop 12
    match wsBack0 insightGroupAt t (wsRun t) with
    | some (w, g) => some (12 + w + g.length, g)
    | none => none
  else none

/-- Case-insensitive search for the first position where a literal matches. -/
def ciFind (pat : Str) : Str → Option Nat
  | [] => if ciHasPre pat [] then some 0 else none
  | c :: cs => if ciHasPre pat (c :: cs) then some 0 else (ciFind pat cs).map (· + 1)

/-- The lookahead literal closing the reflection group: a blank line and the
bold summary marker opening. -/
def reflLook : Str := ['\n', '\n', '*', '*', 's', 'u', 'm', 'm', 'a', 'r', 'y']

/-- Group step of the reflection pattern: one or more characters of any kind
taken non-greedily, closed by the lookahead literal, so the group runs to the
first occurrence of that literal at offset at least one. -/
def reflGroupAt (u : Str) : Option Str :=
  match u with
  | [] => none
  | _ :: u1 => (ciFind reflLook u1).map (fun j => u.take (j + 1))

def taiBoldLC : Str :=
  ['*', '*', 't', 'h', 'i', 'n', 'k', ' ', 'a', 'b', 'o', 'u', 't', ' ',
   'i', 't', ':', '*', '*']

/-- One attempt of the bold think-about-it reflection pattern; the attempt
position itself is the match start used by the main-text slice. -/
def reflAt (s : Str) : Option Str :=
  if ciHasPre taiBoldLC s then
    let t := s.drop 19
    match wsBack0 reflGroupAt t (wsRun t) with
    | some (_, g) => some g
    | none => none
  else none

/-- Group step of the summary pattern: one or more characters of any kind
taken non-greedily, closed by the end-of-string anchor, which in Python also
matches just before one final trailing newline. -/
def summGroupAt (u : Str) : Option Str :=
  match u with
  | [] => none
  | _ =>
    if u.getLast? = some '\n' ∧ 2 ≤ u.length then some (u.take (u.length - 1))
    else some u

def summBoldLC : Str :=
  ['*', '*', 's', 'u', 'm', 'm', 'a', 'r', 'y', ':', '*', '*']

/-- One attempt of the bold summary pattern. -/
def summAt (s : Str) : Option Str :=
  if ciHasPre summBoldLC s then
    let t := s.drop 12
    match wsBack0 summGroupAt t (wsRun t) with
    | some (_, g) => some g
    | none => none
  else none

/-- Decomposition result of parse_innovation_body: the field names follow the
dictionary keys of the source. -/
structure BodyParts where
  scripture : Str
  main_text : Str
  reflection : Str
  prayer : Str
deriving DecidableEq

/-- parse_innovation_body, identical in
src/scripts/generate_innovations_single_video.py and
src/scripts/generate_innovations_pipeline.py: three independent anchored
extractions, each empty when its pattern does not match, and a main text that
is the slice strictly between the insight match end and the reflection match
start when both matched, and the whole body unmodified otherwise. -/
def parseInnovationBody (body : Str) : BodyParts :=
  let sm := searchAllPos insightAt body
  let rm := searchAllPos reflAt body
  let pm := searchAllPos summAt body
  { scripture :=
      match sm with
      | some (_, (_, g)) => pyStrip g
      | none => []
    main_text :=
      match sm, rm with
      | some (p, (e, _)), some (q, _) => pyStrip ((body.take q).drop (p + e))
      | _, _ => body
    reflection :=
      match rm with
      | some (_, g) => pyStrip g
      | none => []
    prayer :=
      match pm with
      | some (_, g) => pyStrip g
      | none => [] }

def debugFileName : Str :=
  ['d', 'e', 'b', 'u', 'g', '_', 'p', 'g', '_', 'o', 'u', 't', 'p', 'u', 't',
   '.', 't', 'x', 't']

/-- The response-handling tail of generate_articles in src/core/ai_models.py,
from the point where the message content string is in hand: strip it, return
an empty list at once when it is empty, otherwise parse it and, when parsing
yields no articles, write the parsed content to the fixed debug file.  The
second component models the optional write as the file name and the text. -/
def generateArticlesModel (raw : Str) : List Article × Option (Str × Str) :=
  let content := pyStrip raw
  if content.isEmpty then ([], none)
  else
    let articles := parseArticles content
    (articles, if articles.isEmpty then some (debugFileName, content) else none)

/-- The response-handling tail of generate_innovations_and_notes in
src/scripts/generate_innovations_single_video.py: strip the content, parse
it, and when parsing yields no innovations write the content to the fixed
debug file.  A parse that raises is caught by the surrounding handler, which
returns an empty list without writing the debug file. -/
def generateInnovationsModelSV (raw : Str) : List Innovation × Option (Str × Str) :=
  let content := pyStrip raw
  match parseInnovationsAndNotesSV content with
  | none => ([], none)
  | some inns =>
    (inns, if inns.isEmpty then some (debugFileName, content) else none)

/-- Failing input of the single-video parser: an artifact bold title, then a narrative lead-in whose captured clause is whitespace only, so the synthesized title strips to nothing and the code indexes character zero of an empty string. -/
def c1FailInput : Str :=
  ['*', '*', 'K', 'e', 'y', ' ', 'I', 'n', 's', 'i', 'g', 'h',
   't', ':', '*', '*', '\n', 'H', 'e', 'r', 'e', '\x27', 's', ' ',
   's', 'o', 'm', 'e', 't', 'h', 'i', 'n', 'g'] ++
  List.replicate 25 ' ' ++
  ['.']

/-- A section whose bold title group is a single space, so the trimmed title is empty, with a body long enough to be accepted. -/
def c2EmptyTitleInput : Str :=
  ['*', '*', ' ', '*', '*', '\n'] ++
  List.replicate 150 'x'

/-- A notes-mode section that is all title: the heading match consumes everything, leaving an empty body, which the notes-mode parsers accept. -/
def c2NotesInput : Str :=
  ['#', ' '] ++
  List.replicate 58 'S'

/-- A section holding both a bold title line and a heading title line, on which the two attempt orders pick different titles. -/
def c3Input : Str :=
  ['*', '*', 'B', 'o', 'l', 'd', ' ', 'H', 'e', 'a', 'd', 'i',
   'n', 'g', '*', '*', '\n', '#', ' ', 'H', 'a', 's', 'h', ' ',
   'T', 'i', 't', 'l', 'e', '\n', '\n'] ++
  List.replicate 100 'y'

/-- The bold title of the order-divergence section. -/
def boldHeadingStr : Str :=
  ['B', 'o', 'l', 'd', ' ', 'H', 'e', 'a', 'd', 'i', 'n', 'g']

/-- The heading title of the order-divergence section. -/
def hashTitleStr : Str :=
  ['H', 'a', 's', 'h', ' ', 'T', 'i', 't', 'l', 'e']

/-- The body parse_articles extracts from the order-divergence section: everything after the bold match. -/
def c3AmBody : Str :=
  ['#', ' ', 'H', 'a', 's', 'h', ' ', 'T', 'i', 't', 'l', 'e',
   '\n', '\n'] ++
  List.replicate 100 'y'

/-- A notes-mode section of trimmed length sixty: below the eighty-character bound of the claim yet above the fifty-character bound of the notes-mode parsers. -/
def c4ShortInput : Str :=
  ['#', ' '] ++
  List.replicate 58 'T'

/-- A section whose matched bold title is the artifact Key Insight marker, with no narrative lead-in phrase and a capitalized sentence after the blank line. -/
def c8Input : Str :=
  ['*', '*', 'K', 'e', 'y', ' ', 'I', 'n', 's', 'i', 'g', 'h',
   't', ':', '*', '*', '\n', '\n', 'G', 'r', 'a', 'c', 'e', ' ',
   'c', 'h', 'a', 'n', 'g', 'e', 's', ' ', 'e', 'v', 'e', 'r',
   'y', 't', 'h', 'i', 'n', 'g', ' ', 'w', 'e', ' ', 'k', 'n',
   'o', 'w', '.', ' ', 'M', 'o', 'r', 'e', ' ', 'f', 'i', 'l',
   'l', 'e', 'r', ' ', 't', 'e', 'x', 't', ' ', 'h', 'e', 'r',
   'e', ' ', 't', 'o', ' ', 'r', 'e', 'a', 'c', 'h', ' ', 'l',
   'e', 'n', 'g', 't', 'h', '.']

/-- The title the single-video fallback synthesizes for the artifact section. -/
def c8Title : Str :=
  ['G', 'r', 'a', 'c', 'e', ' ', 'c', 'h', 'a', 'n', 'g', 'e',
   's', ' ', 'e', 'v', 'e', 'r', 'y', 't', 'h', 'i', 'n', 'g',
   ' ', 'w', 'e', ' ', 'k', 'n', 'o', 'w']

/-- The body extracted from the artifact section. -/
def c8Body : Str :=
  ['G', 'r', 'a', 'c', 'e', ' ', 'c', 'h', 'a', 'n', 'g', 'e',
   's', ' ', 'e', 'v', 'e', 'r', 'y', 't', 'h', 'i', 'n', 'g',
   ' ', 'w', 'e', ' ', 'k', 'n', 'o', 'w', '.', ' ', 'M', 'o',
   'r', 'e', ' ', 'f', 'i', 'l', 'l', 'e', 'r', ' ', 't', 'e',
   'x', 't', ' ', 'h', 'e', 'r', 'e', ' ', 't', 'o', ' ', 'r',
   'e', 'a', 'c', 'h', ' ', 'l', 'e', 'n', 'g', 't', 'h', '.']

/-- An article-qualifying section for the note-consumption witness. -/
def c6ArtSection : Str :=
  ['*', '*', 'D', 'e', 'e', 'p', ' ', 'T', 'r', 'u', 't', 'h',
   '*', '*', '\n', '\n', 'H', 'e', 'r', 'e', ' ', 'i', 's', ' ',
   'a', ' ', 'b', 'o', 'd', 'y', ' ', 't', 'h', 'a', 't', ' ',
   'i', 's', ' ', 'l', 'o', 'n', 'g', ' ', 'e', 'n', 'o', 'u',
   'g', 'h', ' ', 't', 'o', ' ', 'p', 'a', 's', 's', ' ', 't',
   'h', 'e', ' ', 'f', 'i', 'f', 't', 'y', ' ', 'c', 'h', 'a',
   'r', 'a', 'c', 't', 'e', 'r', ' ', 'c', 'h', 'e', 'c', 'k',
   ' ', 'e', 'a', 's', 'i', 'l', 'y', '.']

/-- The note test passes for the two plain paragraphs of the witness. -/
def c6Note1 : Str := List.replicate 120 'a'

def c6Note2 : Str := List.replicate 90 'b'

/-- A body holding only a key-insight marker: decomposition must keep the whole body as main text. -/
def c7Body : Str :=
  ['K', 'e', 'y', ' ', 'I', 'n', 's', 'i', 'g', 'h', 't', ':',
   ' ', 't', 'r', 'u', 's', 't', ' ', 'G', 'o', 'd', '\n', '\n',
   'M', 'o', 'r', 'e', ' ', 't', 'e', 'x', 't', ' ', 'f', 'o',
   'l', 'l', 'o', 'w', 's', ' ', 'h', 'e', 'r', 'e', '.']

/-- The insight clause of the key-insight-only body. -/
def c7Insight : Str :=
  ['t', 'r', 'u', 's', 't', ' ', 'G', 'o', 'd']

/-- A body where the exact-case marker is not followed by a blank line, but an uppercase variant earlier is. -/
def c10CeBody : Str :=
  ['K', 'E', 'Y', ' ', 'I', 'N', 'S', 'I', 'G', 'H', 'T', ':',
   ' ', 'x', '\n', '\n', 'K', 'e', 'y', ' ', 'I', 'n', 's', 'i',
   'g', 'h', 't', ':', ' ', 'y']

/-- A body whose key-insight marker runs to the end of the string with no blank line after it. -/
def c10WitBody : Str :=
  ['K', 'e', 'y', ' ', 'I', 'n', 's', 'i', 'g', 'h', 't', ':',
   ' ', 'x', ' ', 'a', 't', ' ', 'e', 'n', 'd', ' ', 'n', 'o',
   ' ', 'b', 'l', 'a', 'n', 'k']

/-- A title that ends in a single asterisk: it contains no double asterisk, yet the non-greedy bold group closes one character early on it. -/
def c5CeTitle : Str := ['a', '*']

/-- The body of the round-trip counterexample pair. -/
def c5CeBody : Str := List.replicate 100 'x'

/-- First witness pair title. -/
def c5WitTitle1 : Str :=
  ['A', 'l', 'p', 'h', 'a', ' ', 'O', 'n', 'e']

/-- Second witness pair title. -/
def c5WitTitle2 : Str :=
  ['B', 'e', 't', 'a', ' ', 'T', 'w', 'o']

def c5WitBody1 : Str := List.replicate 100 'x'

def c5WitBody2 : Str := List.replicate 100 'z'

/-- A well-formed section for the body-length witness. -/
def c2WitInput : Str :=
  ['*', '*', 'T', 'i', 't', 'l', 'e', ' ', 'H', 'e', 'r', 'e',
   '*', '*', '\n', '\n'] ++
  List.replicate 120 'w'


/-- Whether a string holds two adjacent asterisks anywhere. -/
def hasDoubleStar : Str → Bool
  | [] => false
  | [_] => false
  | a :: b :: rest => (a = '*' && b = '*') || hasDoubleStar (b :: rest)

/-- The fabricated block of one round-trip pair: bold title markers around
the title, a blank line, then the body. -/
def mkBlock (t b : Str) : Str :=
  '*' :: '*' :: (t ++ '*' :: '*' :: '\n' :: '\n' :: b)

/-- One delimiter line of the fabricated response. -/
def delimLit : Str := ['\n', '-', '-', '-', '\n']

/-- The fabricated raw response: the blocks joined by delimiter lines. -/
def joinBlocks : List Str → Str
  | [] => []
  | [x] => x
  | x :: y :: rest => x ++ (delimLit ++ joinBlocks (y :: rest))

/-- No delimiter-line match can start inside the body, stated through the
delimiter matcher over the body with the blank line of its block before it
and one sentinel newline after it (a following delimiter line starts with a
newline, so a match spilling over the end of the body sees exactly that). -/
def bodyClean (b : Str) : Prop :=
  ∀ i < ('\n' :: '\n' :: (b ++ ['\n'])).length,
    delimCheck (('\n' :: '\n' :: (b ++ ['\n'])).drop i) = none

/-- Well-formedness of one round-trip pair: the title is one line, non-empty
after trim, has no double asterisk and does not end in an asterisk; the body
is at least one hundred characters after trim, holds no delimiter line and
does not start with a title pattern. -/
instance bodyCleanDecidable (b : Str) : Decidable (bodyClean b) := by
  unfold bodyClean
  infer_instance

def WfPair (t b : Str) : Prop :=
  '\n' ∉ t ∧ pyStrip t ≠ [] ∧ hasDoubleStar t = false ∧ t.getLast? ≠ some '*' ∧
  100 ≤ (pyStrip b).length ∧ bodyClean b ∧ b.take 2 ≠ ['*', '*'] ∧ b.take 1 ≠ ['#']

instance wfPairDecidable (t b : Str) : Decidable (WfPair t b) := by
  unfold WfPair
  infer_instance

/-- C1: the claim reads that parsing is total for every input string and that
the empty string yields an empty list.  parse_articles is total and both
parsers return an empty result on the empty string; but the single-video
parse_innovations_and_notes raises an uncaught IndexError on c1FailInput,
where the fallback title synthesis captures a whitespace-only clause, strips
it to nothing and indexes character zero (modelled by the none result). -/
theorem c1_parsing_totality_code_bug :
    parseArticles [] = [] ∧
    parseInnovationsAndNotesSV [] = some [] ∧
    parseInnovationsAndNotesPL [] = [] ∧
    parseInnovationsAndNotesSV c1FailInput = none := by
  decide

/-- C2, counterexample: parse_articles emits an article whose trimmed title
is empty from a section whose bold group is a single space, and the
single-video parser emits an article with an empty body, so neither the
non-empty-title part nor the notes-mode body-minimum part of the claim holds
as stated. -/
theorem c2_title_body_counterexample :
    parseArticles c2EmptyTitleInput = [⟨[], List.replicate 150 'x'⟩] ∧
    (¬ ∀ a ∈ parseArticles c2EmptyTitleInput, pyStrip a.title ≠ []) ∧
    parseInnovationsAndNotesSV c2NotesInput
      = some [⟨List.replicate 58 'S', [], [], []⟩] ∧
    (¬ ∀ l, parseInnovationsAndNotesSV c2NotesInput = some l →
        ∀ i ∈ l, 50 ≤ i.body.length) := by
  refine ⟨by decide, by decide, by decide, fun hall => ?_⟩
  have := hall [⟨List.replicate 58 'S', [], [], []⟩] (by decide)
    ⟨List.replicate 58 'S', [], [], []⟩ (by decide)
  simp at this

/-- C2, amended: every article parse_articles emits has a body of at least
one hundred characters (the claim held for the body in simple mode; the
trimmed title can be empty, and the notes-mode parsers bound the section, not
the body). -/
theorem c2_body_length_amended (content : Str) (a : Article)
    (ha : a ∈ parseArticles content) : 100 ≤ a.body.length := by
  simp only [parseArticles, List.mem_filterMap] at ha
  obtain ⟨s, _, hs⟩ := ha
  simp only [extractArticle] at hs
  split at hs
  · exact absurd hs (by simp)
  · split at hs
    · exact absurd hs (by simp)
    · split at hs
      · exact absurd hs (by simp)
      next hlen =>
        have := Option.some.inj hs
        subst this
        simpa using Nat.le_of_not_lt (by simpa using hlen)

/-- C2, witness: a concrete well-formed section yields an article whose body
meets the bound. -/
theorem c2_body_length_witness :
    (Article.mk ['T', 'i', 't', 'l', 'e', ' ', 'H', 'e', 'r', 'e']
        (List.replicate 120 'w') ∈ parseArticles c2WitInput) ∧
    100 ≤ (List.replicate 120 'w').length :=
  ⟨by decide,
   c2_body_length_amended c2WitInput
     (Article.mk ['T', 'i', 't', 'l', 'e', ' ', 'H', 'e', 'r', 'e']
       (List.replicate 120 'w')) (by decide)⟩

/-- C4, counterexample: a section of trimmed length sixty yields an article
in the single-video parser, so the eighty-character bound does not hold in
every pipeline variant. -/
theorem c4_short_section_counterexample :
    (pyStrip c4ShortInput).length = 60 ∧
    parseInnovationsAndNotesSV c4ShortInput
      = some [⟨List.replicate 58 'T', [], [], []⟩] := by
  decide

/-- C4, amended: in parse_articles a section whose trimmed content is shorter
than eighty characters never yields an article; the notes-mode parsers use a
fifty-character bound instead, as the counterexample shows. -/
theorem c4_short_section_amended (s : Str) (h : (pyStrip s).length < 80) :
    extractArticle s = none := by
  have hc : ((pyStrip s).isEmpty || decide ((pyStrip s).length < 80)) = true := by
    simp [h]
  simp only [extractArticle, hc, if_true]

/-- C4, witness: the amended bound at a concrete short section. -/
theorem c4_short_section_witness :
    (pyStrip ['a', 'b']).length < 80 ∧ extractArticle ['a', 'b'] = none :=
  ⟨by decide, c4_short_section_amended ['a', 'b'] (by decide)⟩

/-- C8: the two notes-mode parser variants are not extensionally equal.  On a
section whose matched title is the Key Insight formatting artifact, the
playlist-pipeline variant emits nothing, while the single-video variant
synthesizes a replacement title (here the first capitalized sentence after a
blank line) and emits an article. -/
theorem c8_fallback_divergence :
    parseInnovationsAndNotesPL c8Input = [] ∧
    parseInnovationsAndNotesSV c8Input = some [⟨c8Title, c8Body, [], []⟩] ∧
    svTitleMatch (pyStrip c8Input) ≠ none ∧
    artifactTitles.contains
      (lowerStr (pyStrip ((svTitleMatch (pyStrip c8Input)).getD ⟨[], [], []⟩).g1))
      = true := by
  decide

/-- C10, counterexample: the exact-case marker appears at index sixteen and
no blank line follows it, yet the insight field is not empty, because the
regex is case-insensitive and an uppercase variant of the marker earlier in
the body is followed by a blank line. -/
theorem c10_literal_marker_counterexample :
    containsSub c10CeBody keyInsightCS = true ∧
    subFind c10CeBody keyInsightCS = some 16 ∧
    (∀ j < c10CeBody.length, 16 ≤ j → (c10CeBody.drop j).take 2 ≠ ['\n', '\n']) ∧
    (parseInnovationBody c10CeBody).scripture = ['x'] := by
  decide

theorem scanClose_min : ∀ g2 : Str, ∀ acc r2 g r : Str, '\n' ∉ g2 →
    scanClose acc (g2 ++ '*' :: '*' :: r2) = some (g, r) →
    g.length ≤ acc.length + g2.length := by
  intro g2
  induction g2 with
  | nil =>
    intro acc r2 g r _ h
    simp only [List.nil_append] at h
    rw [show scanClose acc ('*' :: '*' :: r2) = some (acc.reverse, r2) from by
      simp [scanClose]] at h
    simp only [Option.some.injEq, Prod.mk.injEq] at h
    rw [← h.1]
    simp
  | cons c g2' ih =>
    intro acc r2 g r hnl h
    simp only [List.cons_append, scanClose] at h
    split at h
    · simp only [Option.some.injEq, Prod.mk.injEq] at h
      rw [← h.1]
      simp only [List.length_reverse, List.length_cons]
      omega
    · split at h
      · exact absurd h (by simp)
      · have := ih (c :: acc) r2 g r (fun hm => hnl (List.mem_cons_of_mem _ hm)) h
        simp only [List.length_cons] at this ⊢
        omega

/-- C3, counterexample: a section where a bold title line stands above a
heading line, a bold match exists, and yet the single-video parser takes the
heading title: the notes-mode parsers try the heading pattern first, not the
bold pattern. -/
theorem c3_bold_not_first_counterexample :
    (searchML boldAt (pyStrip c3Input)).isSome = true ∧
    parseInnovationsAndNotesSV c3Input
      = some [⟨hashTitleStr, List.replicate 100 'y', [], []⟩] ∧
    hashTitleStr ≠ boldHeadingStr := by
  decide

/-- C3, amended: parse_articles tries the bold pattern first and the heading
pattern only when no bold match exists; the notes-mode parsers try the
heading pattern first and the bold pattern only when no heading match exists;
the bold group is non-greedy, closing at the earliest double asterisk, so its
group is never longer than any enclosing candidate span; and on the concrete
two-title section the two orders produce the two different titles. -/
theorem c3_title_order_amended :
    (∀ s m, searchML boldAt s = some m → amTitleMatch s = some m) ∧
    (∀ s m, searchML hashAt s = some m → svTitleMatch s = some m) ∧
    (∀ acc u g r, scanClose acc u = some (g, r) →
       ∀ g2 r2, u = g2 ++ '*' :: '*' :: r2 → '\n' ∉ g2 →
         g.length ≤ acc.length + g2.length) ∧
    parseArticles c3Input = [⟨boldHeadingStr, c3AmBody⟩] ∧
    parseInnovationsAndNotesPL c3Input
      = [⟨hashTitleStr, List.replicate 100 'y', [], []⟩] := by
  refine ⟨?_, ?_, ?_, by decide, by decide⟩
  · intro s m h
    simp only [amTitleMatch, h]
  · intro s m h
    simp only [svTitleMatch, h]
  · intro acc u g r h g2 r2 hu hnl
    subst hu
    exact scanClose_min g2 acc r2 g r hnl h

/-- C6: after an accepted article section, the next section becomes the first
note exactly when it passes the note test; the one after is tried for the
second note only then; two consumed note sections are skipped by the scan;
and a section that fails the test stays in place as the next candidate
article.  Stated for both notes-mode parsers. -/
theorem c6_note_consumption (s n1 n2 : Str) (rest : List Str) (t b : Str) :
    (svStep s = SvStep.accept t b →
      ((noteOk (pyStrip n1) = true → noteOk (pyStrip n2) = true →
          svAux (s :: n1 :: n2 :: rest)
            = (svAux rest).map (fun l => ⟨t, b, pyStrip n1, pyStrip n2⟩ :: l)) ∧
       (noteOk (pyStrip n1) = true → noteOk (pyStrip n2) = false →
          svAux (s :: n1 :: n2 :: rest)
            = (svAux (n2 :: rest)).map (fun l => ⟨t, b, pyStrip n1, []⟩ :: l)) ∧
       (noteOk (pyStrip n1) = false →
          svAux (s :: n1 :: rest)
            = (svAux (n1 :: rest)).map (fun l => ⟨t, b, [], []⟩ :: l)))) ∧
    (plStep s = some (t, b) →
      ((noteOk (pyStrip n1) = true → noteOk (pyStrip n2) = true →
          plAux (s :: n1 :: n2 :: rest)
            = ⟨t, b, pyStrip n1, pyStrip n2⟩ :: plAux rest) ∧
       (noteOk (pyStrip n1) = true → noteOk (pyStrip n2) = false →
          plAux (s :: n1 :: n2 :: rest)
            = ⟨t, b, pyStrip n1, []⟩ :: plAux (n2 :: rest)) ∧
       (noteOk (pyStrip n1) = false →
          plAux (s :: n1 :: rest)
            = ⟨t, b, [], []⟩ :: plAux (n1 :: rest)))) := by
  constructor
  · intro hsv
    refine ⟨?_, ?_, ?_⟩
    · intro h1 h2
      rw [svAux_accept hsv]
      simp [takeNotes, h1, h2]
    · intro h1 h2
      rw [svAux_accept hsv]
      simp [takeNotes, h1, h2]
    · intro h1
      rw [svAux_accept hsv]
      simp [takeNotes, h1]
  · intro hpl
    refine ⟨?_, ?_, ?_⟩
    · intro h1 h2
      rw [plAux_accept hpl]
      simp [takeNotes, h1, h2]
    · intro h1 h2
      rw [plAux_accept hpl]
      simp [takeNotes, h1, h2]
    · intro h1
      rw [plAux_accept hpl]
      simp [takeNotes, h1]

/-- The title of the note-consumption witness section. -/
def c6ArtTitle : Str := ['D', 'e', 'e', 'p', ' ', 'T', 'r', 'u', 't', 'h']

/-- The body of the note-consumption witness section. -/
def c6ArtBody : Str :=
  ['H', 'e', 'r', 'e', ' ', 'i', 's', ' ', 'a', ' ', 'b', 'o',
   'd', 'y', ' ', 't', 'h', 'a', 't', ' ', 'i', 's', ' ', 'l',
   'o', 'n', 'g', ' ', 'e', 'n', 'o', 'u', 'g', 'h', ' ', 't',
   'o', ' ', 'p', 'a', 's', 's', ' ', 't', 'h', 'e', ' ', 'f',
   'i', 'f', 't', 'y', ' ', 'c', 'h', 'a', 'r', 'a', 'c', 't',
   'e', 'r', ' ', 'c', 'h', 'e', 'c', 'k', ' ', 'e', 'a', 's',
   'i', 'l', 'y', '.']

/-- C6, witness: the spec test vector, an article section followed by a
120-character and then a 90-character plain paragraph, attaches both notes. -/
theorem c6_note_consumption_witness :
    svStep c6ArtSection = SvStep.accept c6ArtTitle c6ArtBody ∧
    noteOk (pyStrip c6Note1) = true ∧ noteOk (pyStrip c6Note2) = true ∧
    svAux [c6ArtSection, c6Note1, c6Note2]
      = (svAux []).map
          (fun l => ⟨c6ArtTitle, c6ArtBody, pyStrip c6Note1, pyStrip c6Note2⟩ :: l) :=
  ⟨by decide, by decide, by decide,
   ((c6_note_consumption c6ArtSection c6Note1 c6Note2 [] c6ArtTitle c6ArtBody).1
      (by decide)).1 (by decide) (by decide)⟩

/-- C7: the body decomposition is total by construction, each of the three
anchored fields defaults to empty when its pattern finds no match, the main
text is the whole unmodified body unless both the insight and the reflection
anchors matched (in which case it is the trimmed slice strictly between the
insight match end and the reflection match start), and a body holding only a
key-insight marker keeps the full body as its main text. -/
theorem c7_body_decomposition :
    (∀ body : Str,
      (searchAllPos insightAt body = none →
         (parseInnovationBody body).scripture = []) ∧
      (searchAllPos reflAt body = none →
         (parseInnovationBody body).reflection = []) ∧
      (searchAllPos summAt body = none →
         (parseInnovationBody body).prayer = []) ∧
      ((searchAllPos insightAt body = none ∨ searchAllPos reflAt body = none) →
         (parseInnovationBody body).main_text = body) ∧
      (∀ p e g q g2, searchAllPos insightAt body = some (p, (e, g)) →
         searchAllPos reflAt body = some (q, g2) →
         (parseInnovationBody body).main_text
           = pyStrip ((body.take q).drop (p + e)))) ∧
    parseInnovationBody c7Body = ⟨c7Insight, c7Body, [], []⟩ := by
  constructor
  · intro body
    refine ⟨?_, ?_, ?_, ?_, ?_⟩
    · intro h
      simp [parseInnovationBody, h]
    · intro h
      simp [parseInnovationBody, h]
    · intro h
      simp [parseInnovationBody, h]
    · intro h
      rcases h with h | h
      · simp [parseInnovationBody, h]
      · cases hsm : searchAllPos insightAt body with
        | none => simp [parseInnovationBody, hsm]
        | some v => simp [parseInnovationBody, hsm, h]
    · intro p e g q g2 hsm hrm
      simp [parseInnovationBody, hsm, hrm]
  · decide

/-- C9: in both generate functions, the debug dump occurs exactly in the
zero-article case: a non-empty content that parses to no articles is written
in full to the fixed debug file, at least one parsed article suppresses the
dump, and the dumped text is the very string that was parsed. -/
theorem c9_debug_dump (raw : Str) :
    ((generateArticlesModel raw).1 ≠ [] → (generateArticlesModel raw).2 = none) ∧
    ((generateArticlesModel raw).2 ≠ none → (generateArticlesModel raw).1 = []) ∧
    (pyStrip raw ≠ [] → parseArticles (pyStrip raw) = [] →
       (generateArticlesModel raw).2 = some (debugFileName, pyStrip raw)) ∧
    ((generateInnovationsModelSV raw).1 ≠ [] →
       (generateInnovationsModelSV raw).2 = none) ∧
    ((generateInnovationsModelSV raw).2 ≠ none →
       (generateInnovationsModelSV raw).1 = []) ∧
    (∀ inns, parseInnovationsAndNotesSV (pyStrip raw) = some inns →
       (generateInnovationsModelSV raw).1 = inns ∧
       (inns = [] →
          (generateInnovationsModelSV raw).2 = some (debugFileName, pyStrip raw))) := by
  have h1 : (pyStrip raw).isEmpty = true → generateArticlesModel raw = ([], none) :=
    fun hc => by simp [generateArticlesModel, hc]
  have h2 : (pyStrip raw).isEmpty = false → generateArticlesModel raw
      = (parseArticles (pyStrip raw),
         if (parseArticles (pyStrip raw)).isEmpty then
           some (debugFileName, pyStrip raw)
         else none) :=
    fun hc => by simp [generateArticlesModel, hc]
  have hSVs : ∀ r, parseInnovationsAndNotesSV (pyStrip raw) = some r →
      generateInnovationsModelSV raw
        = (r, if r.isEmpty then some (debugFileName, pyStrip raw) else none) :=
    fun r hr => by simp [generateInnovationsModelSV, hr]
  have hSVn : parseInnovationsAndNotesSV (pyStrip raw) = none →
      generateInnovationsModelSV raw = ([], none) :=
    fun hr => by simp [generateInnovationsModelSV, hr]
  refine ⟨?_, ?_, ?_, ?_, ?_, ?_⟩
  · intro h
    cases hc : (pyStrip raw).isEmpty with
    | true => rw [h1 hc]
    | false =>
      rw [h2 hc] at h ⊢
      simp only at h ⊢
      have : (parseArticles (pyStrip raw)).isEmpty = false := by
        cases he : (parseArticles (pyStrip raw)).isEmpty with
        | true => exact absurd (List.isEmpty_iff.mp he) h
        | false => rfl
      rw [this]
      simp
  · intro h
    cases hc : (pyStrip raw).isEmpty with
    | true => rw [h1 hc]
    | false =>
      rw [h2 hc] at h ⊢
      simp only at h ⊢
      cases he : (parseArticles (pyStrip raw)).isEmpty with
      | true => exact List.isEmpty_iff.mp he
      | false => rw [he] at h; simp at h
  · intro hne hz
    have hc : (pyStrip raw).isEmpty = false := by
      cases hc : (pyStrip raw).isEmpty with
      | true => exact absurd (List.isEmpty_iff.mp hc) hne
      | false => rfl
    rw [h2 hc]
    simp [hz]
  · intro h
    cases hp : parseInnovationsAndNotesSV (pyStrip raw) with
    | none => rw [hSVn hp]
    | some r =>
      rw [hSVs r hp] at h ⊢
      simp only at h ⊢
      have : r.isEmpty = false := by
        cases he : r.isEmpty with
        | true => exact absurd (List.isEmpty_iff.mp he) h
        | false => rfl
      rw [this]
      simp
  · intro h
    cases hp : parseInnovationsAndNotesSV (pyStrip raw) with
    | none => rw [hSVn hp]
    | some r =>
      rw [hSVs r hp] at h ⊢
      simp only at h ⊢
      cases he : r.isEmpty with
      | true => exact List.isEmpty_iff.mp he
      | false => rw [he] at h; simp at h
  · intro inns hp
    rw [hSVs inns hp]
    refine ⟨rfl, fun hz => ?_⟩
    simp [hz]

theorem searchAllPos_none {α : Type} (f : Str → Option α) :
    ∀ s : Str, (∀ i, f (s.drop i) = none) → searchAllPos f s = none := by
  intro s
  induction s with
  | nil =>
    intro h
    have h0 := h 0
    simp only [List.drop_zero] at h0
    simp [searchAllPos, h0]
  | cons c cs ih =>
    intro h
    have h0 := h 0
    simp only [List.drop_zero] at h0
    simp only [searchAllPos, h0]
    rw [ih (fun i => by simpa using h (i + 1))]
    rfl

theorem wsBack0_none {k : Str → Option Str} {s : Str} :
    ∀ n, (∀ w, w ≤ n → k (s.drop w) = none) → wsBack0 k s n = none := by
  intro n
  induction n with
  | zero =>
    intro h
    have h0 := h 0 (by omega)
    simp only [List.drop_zero] at h0
    simp [wsBack0, h0]
  | succ n ih =>
    intro h
    simp only [wsBack0]
    rw [h (n + 1) (by omega)]
    exact ih (fun w hw => h w (by omega))

theorem insightGroupAt_some {u g : Str} (h : insightGroupAt u = some g) :
    ∃ L, 1 ≤ L ∧ (u.drop L).take 2 = ['\n', '\n'] := by
  simp only [insightGroupAt] at h
  split at h
  next rest heq =>
    split at h
    next hL => exact ⟨_, hL, by rw [heq]; rfl⟩
    next => exact absurd h (by simp)
  next => exact absurd h (by simp)

theorem insightAt_none {body : Str} (i : Nat)
    (hnb : ∀ j, i ≤ j → (body.drop j).take 2 ≠ ['\n', '\n']) :
    insightAt (body.drop i) = none := by
  by_cases hci : ciHasPre keyInsightLC (body.drop i) = true
  · have hw : wsBack0 insightGroupAt ((body.drop i).drop 12)
        (wsRun ((body.drop i).drop 12)) = none := by
      apply wsBack0_none
      intro w _
      by_contra hne
      obtain ⟨g, hg⟩ : ∃ g, insightGroupAt (((body.drop i).drop 12).drop w) = some g := by
        cases hx : insightGroupAt (((body.drop i).drop 12).drop w) with
        | none => exact absurd hx hne
        | some g => exact ⟨g, rfl⟩
      obtain ⟨L, _, hnl⟩ := insightGroupAt_some hg
      have hcomp : ((((body.drop i).drop 12).drop w).drop L)
          = body.drop (i + 12 + w + L) := by
        rw [List.drop_drop, List.drop_drop, List.drop_drop]
        congr 1
        omega
      rw [hcomp] at hnl
      exact hnb (i + 12 + w + L) (by omega) hnl
    simp only [insightAt, hci, if_true, hw]
  · simp only [insightAt]
    rw [if_neg hci]

theorem ciFind_min (pat : Str) : ∀ (s : Str) (i0 : Nat), ciFind pat s = some i0 →
    ∀ i, ciHasPre pat (s.drop i) = true → i0 ≤ i := by
  intro s
  induction s with
  | nil =>
    intro i0 h i _
    simp only [ciFind] at h
    split at h
    · simp only [Option.some.injEq] at h
      omega
    · exact absurd h (by simp)
  | cons c cs ih =>
    intro i0 h i hi
    simp only [ciFind] at h
    split at h
    · simp only [Option.some.injEq] at h
      omega
    next hc =>
      cases hcf : ciFind pat cs with
      | none => rw [hcf] at h; exact absurd h (by simp)
      | some j =>
        rw [hcf] at h
        simp only [Option.map_some', Option.some.injEq] at h
        cases i with
        | zero =>
          simp only [List.drop_zero] at hi
          exact absurd hi hc
        | succ n =>
          have := ih j hcf n (by simpa using hi)
          omega

/-- C10, amended: the insight extraction requires a terminating blank line
and does not accept the end of the string, with the marker matched
case-insensitively: for every body in which the marker occurs
case-insensitively and no blank line stands at or after its first
case-insensitive occurrence, the insight field is empty and the main text
falls back to the entire body. -/
theorem c10_insight_blank_line_amended (body : Str) (i0 : Nat)
    (hfirst : ciFind keyInsightLC body = some i0)
    (hnb : ∀ j < body.length, i0 ≤ j → (body.drop j).take 2 ≠ ['\n', '\n']) :
    (parseInnovationBody body).scripture = [] ∧
    (parseInnovationBody body).main_text = body := by
  have hsm : searchAllPos insightAt body = none := by
    apply searchAllPos_none
    intro i
    by_cases hci : ciHasPre keyInsightLC (body.drop i) = true
    · apply insightAt_none
      intro j hij
      by_cases hjl : j < body.length
      · exact hnb j hjl (le_trans (ciFind_min keyInsightLC body i0 hfirst i hci) hij)
      · rw [List.drop_eq_nil_of_le (by omega)]
        simp
    · simp only [insightAt]
      rw [if_neg hci]
  constructor
  · simp [parseInnovationBody, hsm]
  · simp [parseInnovationBody, hsm]

/-- C10, witness: the amended statement at a body whose marker runs to the
end of the string with no blank line at all. -/
theorem c10_insight_blank_line_witness :
    ciFind keyInsightLC c10WitBody = some 0 ∧
    (∀ j < c10WitBody.length, 0 ≤ j → (c10WitBody.drop j).take 2 ≠ ['\n', '\n']) ∧
    ((parseInnovationBody c10WitBody).scripture = [] ∧
     (parseInnovationBody c10WitBody).main_text = c10WitBody) :=
  ⟨by decide, by decide,
   c10_insight_blank_line_amended c10WitBody 0 (by decide) (by decide)⟩

/-- C5, counterexample: the pair with title a-star satisfies every condition
of the claim (single-line, non-empty after trim, no double asterisk, body of
one hundred characters with no delimiter line), yet parsing its fabricated
block recovers the title a and a body that still carries the leftover
asterisk, because the non-greedy bold group closes one character early. -/
theorem c5_roundtrip_counterexample :
    ('\n' ∉ c5CeTitle) ∧ pyStrip c5CeTitle ≠ [] ∧
    containsSub c5CeTitle ['*', '*'] = false ∧
    100 ≤ (pyStrip c5CeBody).length ∧ bodyClean c5CeBody ∧
    c5CeBody.take 2 ≠ ['*', '*'] ∧ c5CeBody.take 1 ≠ ['#'] ∧
    joinBlocks [mkBlock c5CeTitle c5CeBody] = mkBlock c5CeTitle c5CeBody ∧
    parseArticles (mkBlock c5CeTitle c5CeBody)
      ≠ [⟨pyStrip c5CeTitle, pyStrip c5CeBody⟩] ∧
    parseArticles (mkBlock c5CeTitle c5CeBody)
      = [⟨['a'], '*' :: '\n' :: '\n' :: List.replicate 100 'x'⟩] := by
  decide

theorem dropWhile_append_ne {p : Char → Bool} : ∀ a b : Str, a.dropWhile p ≠ [] →
    (a ++ b).dropWhile p = a.dropWhile p ++ b := by
  intro a
  induction a with
  | nil => intro b h; exact absurd rfl h
  | cons c cs ih =>
    intro b h
    by_cases hc : p c
    · rw [List.dropWhile_cons, if_pos hc] at h
      rw [List.cons_append, List.dropWhile_cons, if_pos hc,
        List.dropWhile_cons, if_pos hc]
      exact ih b h
    · rw [List.cons_append, List.dropWhile_cons, if_neg hc,
        List.dropWhile_cons, if_neg hc, List.cons_append]

theorem dropWhile_idem (p : Char → Bool) :
    ∀ l : Str, (l.dropWhile p).dropWhile p = l.dropWhile p := by
  intro l
  induction l with
  | nil => rfl
  | cons c cs ih =>
    by_cases hc : p c
    · rw [List.dropWhile_cons, if_pos hc]
      exact ih
    · rw [List.dropWhile_cons, if_neg hc, List.dropWhile_cons, if_neg hc]

theorem stripRight_append {x y : Str} (h : stripRight y ≠ []) :
    stripRight (x ++ y) = x ++ stripRight y := by
  have hne : y.reverse.dropWhile isPyWs ≠ [] := by
    intro he
    apply h
    unfold stripRight
    rw [he]
    rfl
  unfold stripRight
  rw [List.reverse_append, dropWhile_append_ne _ _ hne, List.reverse_append,
    List.reverse_reverse]

theorem stripRight_idem (y : Str) : stripRight (stripRight y) = stripRight y := by
  unfold stripRight
  rw [List.reverse_reverse, dropWhile_idem]

theorem stripRight_append_stripRight (u x : Str) (hx : stripRight x ≠ []) :
    stripRight (u ++ stripRight x) = u ++ stripRight x := by
  rw [stripRight_append (by rw [stripRight_idem]; exact hx), stripRight_idem]

theorem stripRight_ne_nil {b : Str} (h : pyStrip b ≠ []) : stripRight b ≠ [] := by
  intro he
  apply h
  unfold pyStrip
  rw [he]
  rfl

theorem pyStrip_nlnl (b : Str) (h : stripRight b ≠ []) :
    pyStrip ('\n' :: '\n' :: stripRight b) = pyStrip b := by
  show stripLeft (stripRight (['\n', '\n'] ++ stripRight b)) = _
  rw [stripRight_append_stripRight _ _ h]
  show stripLeft ('\n' :: '\n' :: stripRight b) = _
  unfold stripLeft
  rw [List.dropWhile_cons, if_pos (by decide), List.dropWhile_cons,
    if_pos (by decide)]
  rfl

theorem pyStrip_mkBlock (t b : Str) (hb : stripRight b ≠ []) :
    pyStrip (mkBlock t b)
      = '*' :: '*' :: (t ++ '*' :: '*' :: '\n' :: '\n' :: stripRight b) := by
  have h1 : stripRight ('\n' :: '\n' :: b) = '\n' :: '\n' :: stripRight b :=
    stripRight_append (x := ['\n', '\n']) hb
  have hsplit : mkBlock t b
      = ('*' :: '*' :: (t ++ ['*', '*'])) ++ ('\n' :: '\n' :: b) := by
    simp [mkBlock]
  have h2 : stripRight (mkBlock t b)
      = ('*' :: '*' :: (t ++ ['*', '*'])) ++ ('\n' :: '\n' :: stripRight b) := by
    rw [hsplit, stripRight_append (by rw [h1]; simp), h1]
  unfold pyStrip
  rw [h2]
  simp only [List.cons_append]
  unfold stripLeft
  rw [List.dropWhile_cons, if_neg (by decide)]
  simp [List.append_assoc]

theorem hasDoubleStar_tail {c : Char} {t : Str} (h : hasDoubleStar (c :: t) = false) :
    hasDoubleStar t = false := by
  cases t with
  | nil => rfl
  | cons d r =>
    simp only [hasDoubleStar, Bool.or_eq_false_iff] at h
    exact h.2

theorem scanClose_exact : ∀ tt acc r2 : Str, '\n' ∉ tt → hasDoubleStar tt = false →
    tt.getLast? ≠ some '*' →
    scanClose acc (tt ++ '*' :: '*' :: r2) = some (acc.reverse ++ tt, r2) := by
  intro tt
  induction tt with
  | nil =>
    intro acc r2 _ _ _
    simp only [List.nil_append]
    rw [show scanClose acc ('*' :: '*' :: r2) = some (acc.reverse, r2) from by
      simp [scanClose]]
    simp
  | cons c tt' ih =>
    intro acc r2 hnl hds hlast
    have hnc : ¬ (c = '*' ∧ (tt' ++ '*' :: '*' :: r2).head? = some '*') := by
      rintro ⟨hc, hh⟩
      cases tt' with
      | nil =>
        subst hc
        exact hlast rfl
      | cons d tt'' =>
        simp only [List.cons_append, List.head?_cons, Option.some.injEq] at hh
        subst hc
        subst hh
        simp [hasDoubleStar] at hds
    have hcn : ¬ c = '\n' := fun e => hnl (by rw [e]; exact List.mem_cons_self _ _)
    have hlast' : tt'.getLast? ≠ some '*' := by
      cases tt' with
      | nil => simp
      | cons d tt'' =>
        intro he
        apply hlast
        rw [List.getLast?_cons_cons]
        exact he
    have ihh := ih (c :: acc) r2 (fun hm => hnl (List.mem_cons_of_mem _ hm))
      (hasDoubleStar_tail hds) hlast'
    simp only [List.cons_append, scanClose]
    split
    next hcond => exact absurd hcond hnc
    next =>
      exact ihh.trans (by simp)

theorem boldAt_block {t rest0 : Str} (ht : t ≠ []) (hnl : '\n' ∉ t)
    (hds : hasDoubleStar t = false) (hlast : t.getLast? ≠ some '*') :
    boldAt ('*' :: '*' :: (t ++ '*' :: '*' :: rest0))
      = some ⟨'*' :: '*' :: (t ++ ['*', '*']), t, rest0⟩ := by
  cases t with
  | nil => exact absurd rfl ht
  | cons c t' =>
    have hcn : ¬ c = '\n' := fun e => hnl (by rw [e]; exact List.mem_cons_self _ _)
    have hlast' : t'.getLast? ≠ some '*' := by
      cases t' with
      | nil => simp
      | cons d t'' =>
        intro he
        apply hlast
        rw [List.getLast?_cons_cons]
        exact he
    have hsc := scanClose_exact t' [c] rest0
      (fun hm => hnl (List.mem_cons_of_mem _ hm)) (hasDoubleStar_tail hds) hlast'
    simp only [boldAt, boldGroup, List.cons_append]
    rw [if_neg hcn, hsc]
    simp

theorem length_stripLeft_le (l : Str) : (stripLeft l).length ≤ l.length := by
  unfold stripLeft
  induction l with
  | nil => simp
  | cons c cs ih =>
    rw [List.dropWhile_cons]
    split
    · simp only [List.length_cons]
      omega
    · simp

theorem extractArticle_block {t b : Str}
    (hnl : '\n' ∉ t) (htne : pyStrip t ≠ []) (hds : hasDoubleStar t = false)
    (hlast : t.getLast? ≠ some '*') (hblen : 100 ≤ (pyStrip b).length) :
    extractArticle (mkBlock t b) = some ⟨pyStrip t, pyStrip b⟩ := by
  have hbne : pyStrip b ≠ [] := by
    intro he
    rw [he] at hblen
    simp at hblen
  have hbr : stripRight b ≠ [] := stripRight_ne_nil hbne
  have hsec := pyStrip_mkBlock t b hbr
  have htne' : t ≠ [] := fun he => htne (by rw [he]; rfl)
  have hsrlen : 100 ≤ (stripRight b).length :=
    le_trans hblen (length_stripLeft_le _)
  have hlen : (pyStrip (mkBlock t b)).length
      = t.length + (stripRight b).length + 6 := by
    rw [hsec]
    simp [List.length_append]
    omega
  have hc2 : ¬ (((pyStrip (mkBlock t b)).isEmpty
      || decide ((pyStrip (mkBlock t b)).length < 80)) = true) := by
    rw [hsec]
    simp only [List.isEmpty_cons, Bool.false_or, decide_eq_true_eq]
    rw [← hsec, hlen]
    omega
  have hbold : searchML boldAt (pyStrip (mkBlock t b))
      = some ⟨'*' :: '*' :: (t ++ ['*', '*']), t, '\n' :: '\n' :: stripRight b⟩ := by
    rw [hsec]
    exact searchML_hit (boldAt_block htne' hnl hds hlast)
  have ham : amTitleMatch (pyStrip (mkBlock t b))
      = some ⟨'*' :: '*' :: (t ++ ['*', '*']), t, '\n' :: '\n' :: stripRight b⟩ := by
    simp only [amTitleMatch, hbold]
  have hbody : pyStrip ('\n' :: '\n' :: stripRight b) = pyStrip b :=
    pyStrip_nlnl b hbr
  simp only [extractArticle]
  rw [if_neg hc2, ham]
  simp only [hbody]
  rw [if_neg (by omega)]

theorem get?_replicate_of_lt : ∀ {n i : Nat} {c : Char}, i < n →
    (List.replicate n c).get? i = some c := by
  intro n
  induction n with
  | zero => intro i c h; omega
  | succ n ih =>
    intro i c h
    cases i with
    | zero => rfl
    | succ j => simpa [List.replicate] using ih (by omega)

theorem drop_append_ge {l1 l2 : List Char} {n : Nat} (h : l1.length ≤ n) :
    (l1 ++ l2).drop n = l2.drop (n - l1.length) := by
  conv_lhs => rw [show n = l1.length + (n - l1.length) from by omega]
  exact List.drop_append _

theorem delimCheck_drop_none {P : Str} (hP : '\n' ∉ P) :
    ∀ i, i < P.length → ∀ Q, delimCheck ((P ++ Q).drop i) = none := by
  induction P with
  | nil => intro i hi; simp at hi
  | cons c cs ih =>
    intro i hi Q
    cases i with
    | zero =>
      rw [List.cons_append]
      exact delimCheck_cons_ne
        (fun e => hP (by rw [e]; exact List.mem_cons_self _ _))
    | succ n =>
      rw [List.cons_append, List.drop_succ_cons]
      exact ih (fun hm => hP (List.mem_cons_of_mem _ hm)) n
        (by simp only [List.length_cons] at hi; omega) Q

theorem delimCheck_drop_restrict {B : Str}
    (hB : ∀ i < (B ++ ['\n']).length, delimCheck ((B ++ ['\n']).drop i) = none) :
    ∀ i < B.length, delimCheck (B.drop i) = none := by
  intro i hi
  cases hx : delimCheck (B.drop i) with
  | none => rfl
  | some r =>
    have hext := delimCheck_append hx ['\n']
    rw [← List.drop_append_of_le_length (le_of_lt hi)] at hext
    rw [hB i (by simp only [List.length_append, List.length_cons,
      List.length_nil]; omega)] at hext
    exact absurd hext (by simp)

theorem delimCheck_pat (k : Nat) (hk : 3 ≤ k) (Z : Str) :
    delimCheck (('\n' :: (List.replicate k '-' ++ ['\n'])) ++ Z) = some Z := by
  have h : ('\n' :: (List.replicate k '-' ++ ['\n'])) ++ Z
      = '\n' :: (List.replicate k '-' ++ '\n' :: Z) := by simp
  rw [h, delimCheck_replicate hk]

theorem clean_extend {B : Str}
    (hB : ∀ i < (B ++ ['\n']).length, delimCheck ((B ++ ['\n']).drop i) = none) :
    ∀ i < B.length, ∀ m : Str, delimCheck ((B ++ '\n' :: m).drop i) = none := by
  intro i hi m
  cases hx : delimCheck ((B ++ '\n' :: m).drop i) with
  | none => rfl
  | some r =>
    exfalso
    rw [List.drop_append_of_le_length (le_of_lt hi)] at hx
    obtain ⟨k, hk3, heq⟩ := delimCheck_some hx
    have hdlen : (B.drop i).length = B.length - i := List.length_drop i B
    have hsent : delimCheck (B.drop i ++ ['\n']) = none := by
      rw [← List.drop_append_of_le_length (le_of_lt hi)]
      exact hB i (by simp only [List.length_append, List.length_cons,
        List.length_nil]; omega)
    have hpatlen : ('\n' :: (List.replicate k '-' ++ ['\n'])).length = k + 2 := by
      simp
    have heq2 : B.drop i ++ '\n' :: m
        = ('\n' :: (List.replicate k '-' ++ ['\n'])) ++ r := by
      rw [heq]; simp
    by_cases hc : k + 2 ≤ (B.drop i).length
    · have htake : (B.drop i).take (k + 2)
          = '\n' :: (List.replicate k '-' ++ ['\n']) := by
        have h1 : (B.drop i ++ '\n' :: m).take (k + 2) = (B.drop i).take (k + 2) :=
          List.take_append_of_le_length hc
        have h2 : ((('\n' :: (List.replicate k '-' ++ ['\n']))) ++ r).take (k + 2)
            = '\n' :: (List.replicate k '-' ++ ['\n']) := List.take_left' hpatlen
        rw [← h1, heq2, h2]
      have hdk : B.drop i = ('\n' :: (List.replicate k '-' ++ ['\n']))
          ++ (B.drop i).drop (k + 2) := by
        conv_lhs => rw [← List.take_append_drop (k + 2) (B.drop i)]
        rw [htake]
      have hcontra : delimCheck (B.drop i ++ ['\n'])
          = some ((B.drop i).drop (k + 2) ++ ['\n']) := by
        conv_lhs => rw [hdk]
        rw [List.append_assoc, delimCheck_pat k hk3]
      rw [hsent] at hcontra
      exact absurd hcontra (by simp)
    · have hdpos : 1 ≤ (B.drop i).length := by rw [hdlen]; omega
      have hL : (B.drop i ++ '\n' :: m).get? (B.drop i).length = some '\n' := by
        rw [List.get?_append_right (le_refl _)]
        simp
      rw [heq2, List.get?_append (by rw [hpatlen]; omega)] at hL
      obtain ⟨j, hj⟩ : ∃ j, (B.drop i).length = j + 1 :=
        ⟨(B.drop i).length - 1, by omega⟩
      rw [hj] at hL
      rw [List.get?_cons_succ] at hL
      by_cases hjk : j < k
      · rw [List.get?_append (by simp only [List.length_replicate]; omega),
          get?_replicate_of_lt hjk] at hL
        exact absurd hL (by simp)
      · have hjek : j = k := by omega
        subst hjek
        have htake : (B.drop i).take (j + 1) = '\n' :: List.replicate j '-' := by
          have h1 : (B.drop i ++ '\n' :: m).take (j + 1) = (B.drop i).take (j + 1) :=
            List.take_append_of_le_length (by omega)
          have h2 : ((('\n' :: (List.replicate j '-' ++ ['\n']))) ++ r).take (j + 1)
              = ('\n' :: (List.replicate j '-' ++ ['\n'])).take (j + 1) :=
            List.take_append_of_le_length (by rw [hpatlen]; omega)
          have h3 : ('\n' :: (List.replicate j '-' ++ ['\n'])).take (j + 1)
              = '\n' :: List.replicate j '-' := by
            have : (List.replicate j '-' ++ ['\n']).take j = List.replicate j '-' :=
              List.take_left' (List.length_replicate _ _)
            rw [show ('\n' :: (List.replicate j '-' ++ ['\n'])).take (j + 1)
              = '\n' :: (List.replicate j '-' ++ ['\n']).take j from rfl, this]
          rw [← h1, heq2, h2, h3]
        have hdeq : B.drop i = '\n' :: List.replicate j '-' := by
          rw [← List.take_all_of_le (le_of_eq hj), htake]
        have hcontra : delimCheck (B.drop i ++ ['\n']) = some [] := by
          rw [hdeq]
          rw [show ('\n' :: List.replicate j '-') ++ ['\n']
            = '\n' :: (List.replicate j '-' ++ '\n' :: []) from by simp]
          rw [delimCheck_replicate hk3]
        rw [hsent] at hcontra
        exact absurd hcontra (by simp)

theorem splitGo_block {R2 : Str} : ∀ B acc : Str,
    (∀ i < B.length, delimCheck ((B ++ (delimLit ++ R2)).drop i) = none) →
    splitGo (B ++ (delimLit ++ R2)) acc = (acc.reverse ++ B) :: splitGo R2 [] := by
  intro B
  induction B with
  | nil =>
    intro acc _
    have hd : delimCheck (delimLit ++ R2) = some R2 :=
      delimCheck_replicate (k := 3) (by omega) R2
    rw [List.nil_append, splitGo_delim acc hd, List.append_nil]
  | cons c B' ih =>
    intro acc h
    have h0 := h 0 (by simp)
    rw [List.cons_append] at h0 ⊢
    rw [splitGo_cons acc h0]
    rw [ih (c :: acc) (fun i hi => by
      have hh := h (i + 1) (by simp only [List.length_cons]; omega)
      rwa [List.cons_append, List.drop_succ_cons] at hh)]
    simp

theorem splitGo_last : ∀ B acc : Str,
    (∀ i < B.length, delimCheck (B.drop i) = none) →
    splitGo B acc = [acc.reverse ++ B] := by
  intro B
  induction B with
  | nil =>
    intro acc _
    rw [splitGo_nil]
    simp
  | cons c B' ih =>
    intro acc h
    rw [splitGo_cons acc (h 0 (by simp))]
    rw [ih (c :: acc) (fun i hi => by
      have hh := h (i + 1) (by simp only [List.length_cons]; omega)
      rwa [List.drop_succ_cons] at hh)]
    simp

theorem mem_mkBlock_head {t : Str} (hnl : '\n' ∉ t) :
    '\n' ∉ ('*' :: '*' :: (t ++ ['*', '*']) : Str) := by
  intro hm
  simp only [List.mem_cons, List.mem_append] at hm
  rcases hm with h | h | h | h
  · exact absurd h.symm (by decide)
  · exact absurd h.symm (by decide)
  · exact hnl h
  · simp at h

theorem mkBlock_length (t b : Str) :
    (mkBlock t b).length = (t.length + 4) + (b.length + 2) := by
  simp [mkBlock]
  omega

theorem mkBlock_no_delim_mid {t b : Str} (hnl : '\n' ∉ t) (hbc : bodyClean b) :
    ∀ i < (mkBlock t b).length, ∀ m,
      delimCheck ((mkBlock t b ++ '\n' :: m).drop i) = none := by
  intro i hi m
  have hsplit : mkBlock t b ++ '\n' :: m
      = ('*' :: '*' :: (t ++ ['*', '*'])) ++ (('\n' :: '\n' :: b) ++ '\n' :: m) := by
    simp [mkBlock]
  have hB : ∀ j < (('\n' :: '\n' :: b) ++ ['\n']).length,
      delimCheck ((('\n' :: '\n' :: b) ++ ['\n']).drop j) = none := by
    intro j hj
    exact hbc j (by simpa using hj)
  by_cases hip : i < ('*' :: '*' :: (t ++ ['*', '*']) : Str).length
  · rw [hsplit]
    exact delimCheck_drop_none (mem_mkBlock_head hnl) i hip _
  · have hplen : ('*' :: '*' :: (t ++ ['*', '*']) : Str).length = t.length + 4 := by
      simp
    have hblen : ('\n' :: '\n' :: b : Str).length = b.length + 2 := by simp
    have hi2 : i - (t.length + 4) < b.length + 2 := by
      rw [mkBlock_length] at hi
      rw [hplen] at hip
      omega
    have hdrop : (('*' :: '*' :: (t ++ ['*', '*'])) ++ (('\n' :: '\n' :: b) ++ '\n' :: m)).drop i
        = (('\n' :: '\n' :: b) ++ '\n' :: m).drop (i - (t.length + 4)) := by
      rw [drop_append_ge (by rw [hplen]; rw [hplen] at hip; omega), hplen]
    rw [hsplit, hdrop]
    exact clean_extend hB (i - (t.length + 4)) (by rw [hblen] at *; omega) m

theorem mkBlock_no_delim_last {t b : Str} (hnl : '\n' ∉ t) (hbc : bodyClean b) :
    ∀ i < (mkBlock t b).length, delimCheck ((mkBlock t b).drop i) = none := by
  intro i hi
  have hsplit : mkBlock t b
      = ('*' :: '*' :: (t ++ ['*', '*'])) ++ ('\n' :: '\n' :: b) := by
    simp [mkBlock]
  have hB : ∀ j < (('\n' :: '\n' :: b) ++ ['\n']).length,
      delimCheck ((('\n' :: '\n' :: b) ++ ['\n']).drop j) = none := by
    intro j hj
    exact hbc j (by simpa using hj)
  by_cases hip : i < ('*' :: '*' :: (t ++ ['*', '*']) : Str).length
  · rw [hsplit]
    exact delimCheck_drop_none (mem_mkBlock_head hnl) i hip _
  · have hplen : ('*' :: '*' :: (t ++ ['*', '*']) : Str).length = t.length + 4 := by
      simp
    have hi2 : i - (t.length + 4) < b.length + 2 := by
      rw [mkBlock_length] at hi
      rw [hplen] at hip
      omega
    have hdrop : (('*' :: '*' :: (t ++ ['*', '*'])) ++ ('\n' :: '\n' :: b)).drop i
        = ('\n' :: '\n' :: b).drop (i - (t.length + 4)) := by
      rw [drop_append_ge (by rw [hplen]; rw [hplen] at hip; omega), hplen]
    rw [hsplit, hdrop]
    exact delimCheck_drop_restrict hB (i - (t.length + 4)) (by simp; omega)

theorem splitDelim_joinBlocks : ∀ ps : List (Str × Str),
    (∀ p ∈ ps, '\n' ∉ p.1 ∧ bodyClean p.2) → ps ≠ [] →
    splitDelim (joinBlocks (ps.map (fun p => mkBlock p.1 p.2)))
      = ps.map (fun p => mkBlock p.1 p.2) := by
  intro ps
  induction ps with
  | nil => intro _ h; exact absurd rfl h
  | cons p rest ih =>
    intro h _
    have hp := h p (List.mem_cons_self _ _)
    cases rest with
    | nil =>
      show splitGo (mkBlock p.1 p.2) [] = [mkBlock p.1 p.2]
      rw [splitGo_last _ [] (mkBlock_no_delim_last hp.1 hp.2)]
      simp
    | cons q rest' =>
      have hjoin : joinBlocks ((p :: q :: rest').map (fun p => mkBlock p.1 p.2))
          = mkBlock p.1 p.2
            ++ (delimLit ++ joinBlocks ((q :: rest').map (fun p => mkBlock p.1 p.2))) := by
        rfl
      show splitGo _ [] = _
      rw [hjoin]
      rw [splitGo_block (mkBlock p.1 p.2) []
        (fun i hi => mkBlock_no_delim_mid hp.1 hp.2 i hi _)]
      rw [show (([] : Str).reverse ++ mkBlock p.1 p.2) = mkBlock p.1 p.2 from by simp]
      have := ih (fun r hr => h r (List.mem_cons_of_mem _ hr)) (by simp)
      rw [show splitGo (joinBlocks ((q :: rest').map (fun p => mkBlock p.1 p.2))) []
        = splitDelim (joinBlocks ((q :: rest').map (fun p => mkBlock p.1 p.2))) from rfl]
      rw [this]
      rfl

/-- C5, amended: the round-trip holds once the title additionally does not
end in an asterisk: for every list of pairs with a single-line title that is
non-empty after trim, holds no double asterisk and does not end in an
asterisk, and a body of at least one hundred characters after trim with no
delimiter line and no leading title pattern, parsing the joined blocks
recovers exactly the trimmed pairs in order. -/
theorem c5_roundtrip_amended (ps : List (Str × Str))
    (hwf : ∀ p ∈ ps, WfPair p.1 p.2) :
    parseArticles (joinBlocks (ps.map (fun p => mkBlock p.1 p.2)))
      = ps.map (fun p => Article.mk (pyStrip p.1) (pyStrip p.2)) := by
  cases ps with
  | nil => rfl
  | cons p0 rest =>
    rw [parseArticles, splitDelim_joinBlocks (p0 :: rest)
      (fun p hp => ⟨(hwf p hp).1, (hwf p hp).2.2.2.2.2.1⟩) (by simp)]
    exact filterMap_extract_blocks (p0 :: rest) hwf
where
  filterMap_extract_blocks : ∀ ps : List (Str × Str),
      (∀ p ∈ ps, WfPair p.1 p.2) →
      (ps.map (fun p => mkBlock p.1 p.2)).filterMap extractArticle
        = ps.map (fun p => Article.mk (pyStrip p.1) (pyStrip p.2)) := by
    intro ps
    induction ps with
    | nil => intro _; rfl
    | cons p rest ih =>
      intro h
      obtain ⟨h1, h2, h3, h4, h5, _, _, _⟩ := h p (List.mem_cons_self _ _)
      simp only [List.map_cons]
      rw [List.filterMap_cons_some (extractArticle_block h1 h2 h3 h4 h5)]
      rw [ih (fun r hr => h r (List.mem_cons_of_mem _ hr))]

/-- C5, witness: the amended round-trip at two concrete well-formed pairs. -/
theorem c5_roundtrip_witness :
    (∀ p ∈ [(c5WitTitle1, c5WitBody1), (c5WitTitle2, c5WitBody2)],
       WfPair p.1 p.2) ∧
    parseArticles (joinBlocks
        ([(c5WitTitle1, c5WitBody1), (c5WitTitle2, c5WitBody2)].map
          (fun p => mkBlock p.1 p.2)))
      = [(c5WitTitle1, c5WitBody1), (c5WitTitle2, c5WitBody2)].map
          (fun p => Article.mk (pyStrip p.1) (pyStrip p.2)) :=
  ⟨by decide, c5_roundtrip_amended _ (by decide)⟩

end InnovGen
